/-
Verification of the CardBrick rich-text layout engine (src/ui/font.rs)
against its natural-language specification.

The engine is shallowly embedded: Rust String becomes List Char (byte
indices are recovered through UTF-8 sizes), the SDL2 measurement backend
becomes an explicit measurement function, the Stage-B work-queue loop
becomes a fuel-indexed recursion (the loop can genuinely diverge, see the
non-termination results below), and panics / measurement failures become
distinguished result constructors.
-/
import Mathlib

namespace CardBrick

/-- Mirror of struct TextSpan in src/deck/html_parser.rs (fields in source
order).  Rust String is modelled as List Char. -/
structure TextSpan where
  text : List Char
  new_text_block : Bool
  is_bold : Bool
  is_italic : Bool
  is_ruby_base : Bool
  ruby_text : Option (List Char)
  is_newline : Bool
deriving DecidableEq, Repr

/-- Mirror of struct TextLayout in src/ui/font.rs. -/
structure TextLayout where
  lines : List (List TextSpan)
  total_height : Int
  scroll_offset : Int
deriving DecidableEq, Repr

/-- impl TextSpan, fn text_to_use: the ruby text when use_ruby is set and
present, otherwise the base text. -/
def TextSpan.text_to_use (s : TextSpan) (use_ruby : Bool) : List Char :=
  if use_ruby then s.ruby_text.getD s.text else s.text

/-- The measurement backend (FontManager.size_of_text_with_style): given a
string and the bold/italic flags it returns a pixel width, or fails
(none models an SDL error, which Rust surfaces as Err).  The height
component is never used by the layout engine, so it is omitted. -/
def Meas : Type := List Char → Bool → Bool → Option Nat

/-- Byte length of a string under UTF-8, as Rust str.len() would report. -/
def utf8Len (s : List Char) : Nat := (s.map Char.utf8Size).sum

/-- Rust text.char_indices().nth(k).map_or(0, |(idx, _)| idx): the byte
index of character k, or 0 when k is not a valid character position. -/
def charToByte (s : List Char) (k : Nat) : Nat :=
  if k < s.length then utf8Len (s.take k) else 0

/-- Rust str.split_at(i): succeeds exactly when i is ≤ the byte length and
falls on a UTF-8 character boundary; a panic is modelled as none. -/
def splitAtByte (s : List Char) (i : Nat) : Option (List Char × List Char) :=
  match s, i with
  | s, 0 => some ([], s)
  | [], _ => none
  | c :: cs, i =>
      if c.utf8Size ≤ i then
        (splitAtByte cs (i - c.utf8Size)).map (fun p => (c :: p.1, p.2))
      else none

/-- The while-loop of FontManager.find_split_index (binary search over
character-count cut points).  Each probe measures the mid-character
prefix; a measurement failure aborts with none, mirroring the Rust
question-mark operator. -/
def findLoop (m : Meas) (text : List Char) (avail : Nat) (bold italic : Bool)
    (low high best : Nat) : Option Nat :=
  if _h : low ≤ high then
    let mid := low + (high - low) / 2
    if _h0 : mid = 0 then
      findLoop m text avail bold italic (mid + 1) high best
    else
      match m (text.take mid) bold italic with
      | none => none
      | some w =>
          if w ≤ avail then findLoop m text avail bold italic (mid + 1) high mid
          else findLoop m text avail bold italic low (mid - 1) best
  else
    some best
termination_by high + 1 - low
decreasing_by
  · omega
  · have : (high - low) / 2 ≤ high - low := Nat.div_le_self _ _
    omega
  · have : (high - low) / 2 ≤ high - low := Nat.div_le_self _ _
    omega

/-- FontManager.find_split_index: binary search for the number of display
characters that fit in avail, then conversion of that character count
back to a byte index. -/
def find_split_index (m : Meas) (span : TextSpan) (available_width : Nat)
    (use_ruby : Bool) : Option Nat :=
  let text := span.text_to_use use_ruby
  (findLoop m text available_width span.is_bold span.is_italic 0 text.length 0).map
    (charToByte text)

/-- Outcome of one iteration of the Stage-2 while-loop. -/
inductive StepOut where
  | next (queue curLine : List TextSpan) (curWidth : Nat)
      (lines : List (List TextSpan)) : StepOut
  | errOut : StepOut
  | panicOut : StepOut
deriving DecidableEq, Repr

/-- The body of the Stage-2 while-loop of layout_text_binary, acting on the
popped span and the loop state.  spaceLeft uses Nat subtraction, which is
exactly Rust saturating_sub. -/
def layoutIter (m : Meas) (max_width : Nat) (use_ruby : Bool) (span : TextSpan)
    (rest curLine : List TextSpan) (curWidth : Nat)
    (lines : List (List TextSpan)) : StepOut :=
  if span.is_newline then
    .next rest [] 0 (lines ++ [curLine])
  else
    let disp := span.text_to_use use_ruby
    let spaceLeft := max_width - curWidth
    match m disp span.is_bold span.is_italic with
    | none => .errOut
    | some w =>
        if w ≤ spaceLeft then
          .next rest (curLine ++ [span]) (curWidth + w) lines
        else
          match find_split_index m span spaceLeft use_ruby with
          | none => .errOut
          | some idx =>
              if 0 < idx then
                match splitAtByte span.text idx with
                | none => .panicOut
                | some (fits, remaining) =>
                    .next ({ span with text := remaining } :: rest) [] 0
                      (lines ++ [curLine ++ [{ span with text := fits }]])
              else
                .next (span :: rest) [] 0 (lines ++ [curLine])

/-- Result of a layout call.  ok and errRes are the two Rust Result arms;
panicRes marks a str::split_at panic; noFuel marks an execution that did
not finish within the given fuel (the Rust loop has no such bound, so a
result that is noFuel for every fuel is a non-terminating execution). -/
inductive LRes where
  | ok (t : TextLayout) : LRes
  | errRes : LRes
  | panicRes : LRes
  | noFuel : LRes
deriving DecidableEq, Repr

/-- The epilogue after the Stage-2 loop: push the last line if non-empty,
then guarantee at least one line. -/
def finishLines (lines : List (List TextSpan)) (curLine : List TextSpan) :
    List (List TextSpan) :=
  let l := if curLine.isEmpty then lines else lines ++ [curLine]
  if l.isEmpty then [[]] else l

/-- The Stage-2 while-loop of layout_text_binary, fuel-indexed.  When the
queue is empty the loop exits and the layout is assembled with
total_height = line_height * lines.len(). -/
def layoutLoop (m : Meas) (max_width : Nat) (use_ruby : Bool)
    (line_height : Int) :
    Nat → List TextSpan → List TextSpan → Nat → List (List TextSpan) → LRes
  | _, [], curLine, _, lines =>
      let ls := finishLines lines curLine
      .ok ⟨ls, line_height * (ls.length : Int), 0⟩
  | 0, _ :: _, _, _, _ => .noFuel
  | fuel + 1, span :: rest, curLine, curWidth, lines =>
      match layoutIter m max_width use_ruby span rest curLine curWidth lines with
      | .next q cl cw ls => layoutLoop m max_width use_ruby line_height fuel q cl cw ls
      | .errOut => .errRes
      | .panicOut => .panicRes

/-- Rust str.split('\n'), which always yields one more fragment than there
are newline characters (empty fragments included). -/
def splitNl : List Char → List (List Char)
  | [] => [[]]
  | c :: cs =>
      if c = '\n' then [] :: splitNl cs
      else
        match splitNl cs with
        | [] => [[c]]
        | p :: ps => (c :: p) :: ps

/-- Stage 1 of layout_text_binary for one span: each non-empty fragment
becomes a clone with is_newline := false; between fragments a clone with
empty text and is_newline := true is inserted. -/
def interleaveParts (span : TextSpan) : List (List Char) → List TextSpan
  | [] => []
  | [p] =>
      if p.isEmpty then [] else [{ span with text := p, is_newline := false }]
  | p :: ps =>
      (if p.isEmpty then [] else [{ span with text := p, is_newline := false }]) ++
        ({ span with text := [], is_newline := true } :: interleaveParts span ps)

/-- Stage 1 of layout_text_binary over the whole input sequence. -/
def preprocess (spans : List TextSpan) : List TextSpan :=
  (spans.map (fun s => interleaveParts s (splitNl s.text))).flatten

/-- FontManager.layout_text_binary.  line_height models font.height(),
fuel bounds the Stage-2 loop (see LRes.noFuel). -/
def layout_text_binary (m : Meas) (line_height : Int) (spans : List TextSpan)
    (max_width : Nat) (use_ruby : Bool) (fuel : Nat) : LRes :=
  layoutLoop m max_width use_ruby line_height fuel (preprocess spans) [] 0 []

/-- A plain unstyled span, as the markup parser would produce for raw text. -/
def mkSpan (t : List Char) : TextSpan :=
  ⟨t, false, false, false, false, none, false⟩

/-- A ruby-base span carrying a furigana annotation. -/
def mkRuby (base ruby : List Char) : TextSpan :=
  ⟨base, false, false, false, true, some ruby, false⟩

/-- A measurement stub assigning every character width 1 (a fixed-width
synthetic font, as the spec suggests for testing). -/
def cnt : Meas := fun s _ _ => some s.length

/-- A measurement stub assigning every character width 300. -/
def m300 : Meas := fun s _ _ => some (300 * s.length)

/-- Concatenated base text of one produced line. -/
def lineText (l : List TextSpan) : List Char := (l.map TextSpan.text).flatten

/-- Concatenated base text of the produced lines. -/
def linesText (ls : List (List TextSpan)) : List Char := (ls.map lineText).flatten

/-- Concatenated base text still waiting in the work queue; newline marker
spans carry no content. -/
def queueText (q : List TextSpan) : List Char :=
  (q.map (fun s => if s.is_newline then [] else s.text)).flatten

/-- Sum of the measured widths of the displayed texts of a line's spans
(none when some measurement fails). -/
def measWidth (m : Meas) (use_ruby : Bool) : List TextSpan → Option Nat
  | [] => some 0
  | s :: l =>
      match m (s.text_to_use use_ruby) s.is_bold s.is_italic, measWidth m use_ruby l with
      | some w, some a => some (w + a)
      | _, _ => none

/- ------------------------------------------------------------------ -/
/- Helper lemmas about the byte-index arithmetic.                      -/
/- ------------------------------------------------------------------ -/

lemma utf8Len_nil : utf8Len [] = 0 := rfl

lemma utf8Len_cons (c : Char) (s : List Char) :
    utf8Len (c :: s) = c.utf8Size + utf8Len s := by
  simp [utf8Len]

/-- A successful split_at returns two halves that reassemble the input. -/
lemma splitAtByte_append :
    ∀ (s : List Char) (i : Nat) (a b : List Char),
      splitAtByte s i = some (a, b) → a ++ b = s := by
  intro s
  induction s with
  | nil =>
      intro i a b h
      cases i with
      | zero => simp [splitAtByte] at h; simp [h.1, h.2]
      | succ n => simp [splitAtByte] at h
  | cons c cs ih =>
      intro i a b h
      cases i with
      | zero => simp [splitAtByte] at h; simp [h.1, h.2]
      | succ n =>
          simp only [splitAtByte] at h
          by_cases hc : c.utf8Size ≤ n + 1
          · rw [if_pos hc] at h
            rcases Option.map_eq_some'.1 h with ⟨⟨a1, b1⟩, hsp, heq⟩
            cases heq
            simpa using ih _ _ _ hsp
          · rw [if_neg hc] at h
            exact absurd h (by simp)

/-- split_at succeeds on a character boundary and cuts at that character. -/
lemma splitAtByte_boundary :
    ∀ (k : Nat) (s : List Char), k ≤ s.length →
      splitAtByte s (utf8Len (s.take k)) = some (s.take k, s.drop k) := by
  intro k
  induction k with
  | zero => intro s _; simp [splitAtByte, utf8Len]
  | succ n ih =>
      intro s hs
      cases s with
      | nil => simp at hs
      | cons c cs =>
          have hpos := Char.utf8Size_pos c
          have hlen : n ≤ cs.length := by simpa using hs
          have hrw : utf8Len ((c :: cs).take (n + 1)) =
              c.utf8Size + utf8Len (cs.take n) := by
            simp [utf8Len_cons]
          obtain ⟨j, hj⟩ : ∃ j, c.utf8Size + utf8Len (cs.take n) = j + 1 :=
            ⟨c.utf8Size + utf8Len (cs.take n) - 1, by omega⟩
          rw [hrw, hj]
          simp only [splitAtByte]
          rw [if_pos (by omega : c.utf8Size ≤ j + 1)]
          have hsub : j + 1 - c.utf8Size = utf8Len (cs.take n) := by omega
          rw [hsub, ih cs hlen]
          simp

/-- When char_indices().nth produces a positive byte index, the character
count is a strict in-bounds position and the index is its byte offset. -/
lemma charToByte_pos {s : List Char} {k : Nat} (h : 0 < charToByte s k) :
    k < s.length ∧ 0 < k ∧ charToByte s k = utf8Len (s.take k) := by
  unfold charToByte at *
  by_cases hk : k < s.length
  · rw [if_pos hk] at h ⊢
    refine ⟨hk, ?_, rfl⟩
    rcases Nat.eq_zero_or_pos k with hk0 | hk0
    · subst hk0; simp [utf8Len] at h
    · exact hk0
  · rw [if_neg hk] at h
    exact absurd h (by simp)

/- ------------------------------------------------------------------ -/
/- Lemmas about the binary-search loop.                                -/
/- ------------------------------------------------------------------ -/

/-- Along the binary search the recorded best cut always fits (or is 0). -/
lemma findLoop_fit (m : Meas) (text : List Char) (avail : Nat) (b i : Bool) :
    ∀ low high best,
      (best = 0 ∨ ∃ w, m (text.take best) b i = some w ∧ w ≤ avail) →
      ∀ r, findLoop m text avail b i low high best = some r →
        (r = 0 ∨ ∃ w, m (text.take r) b i = some w ∧ w ≤ avail) := by
  intro low high best
  induction low, high, best using findLoop.induct m text avail b i with
  | case1 low high best hlh mid hmid ih =>
      intro hbest r hr
      rw [findLoop, dif_pos hlh] at hr
      simp only [dif_pos hmid] at hr
      exact ih hbest r hr
  | case2 low high best hlh mid hmid hm =>
      intro hbest r hr
      rw [findLoop, dif_pos hlh] at hr
      simp only [dif_neg hmid, hm] at hr
      exact Option.noConfusion hr
  | case3 low high best hlh mid hmid w hw hwa ih =>
      intro hbest r hr
      rw [findLoop, dif_pos hlh] at hr
      simp only [dif_neg hmid, hw, if_pos hwa] at hr
      exact ih (Or.inr ⟨w, hw, hwa⟩) r hr
  | case4 low high best hlh mid hmid w hw hwa ih =>
      intro hbest r hr
      rw [findLoop, dif_pos hlh] at hr
      simp only [dif_neg hmid, hw, if_neg hwa] at hr
      exact ih hbest r hr
  | case5 low high best hlh =>
      intro hbest r hr
      rw [findLoop, dif_neg hlh] at hr
      cases hr
      exact hbest

/-- Full correctness of the binary-search loop under a monotone measure:
starting from a state satisfying the search invariants it returns the
greatest fitting cut (or 0). -/
lemma findLoop_correct (m : Meas) (text : List Char) (avail : Nat) (b i : Bool)
    (W : Nat → Nat)
    (hW : ∀ k, k ≤ text.length → m (text.take k) b i = some (W k))
    (hmono : ∀ j k, j ≤ k → k ≤ text.length → W j ≤ W k) :
    ∀ low high best,
      low ≤ high + 1 → high ≤ text.length →
      (∀ k, 1 ≤ k → k < low → W k ≤ avail) →
      (∀ k, high < k → k ≤ text.length → avail < W k) →
      (low = 0 → best = 0) → (1 ≤ low → best = low - 1) →
      ∃ r, findLoop m text avail b i low high best = some r ∧
        (r = 0 ∨ (1 ≤ r ∧ W r ≤ avail)) ∧
        (∀ j, r < j → j ≤ text.length → avail < W j) ∧
        r ≤ text.length := by
  intro low high best
  induction low, high, best using findLoop.induct m text avail b i with
  | case1 low high best hlh mid hmid ih =>
      intro hlh1 hhl h1 h2 hb0 hb1
      have hlow0 : low = 0 := by
        have : low ≤ mid := Nat.le_add_right _ _
        omega
      rw [findLoop, dif_pos hlh]
      simp only [dif_pos hmid]
      refine ih ?_ hhl ?_ h2 ?_ ?_
      · omega
      · intro k hk1 hk2; omega
      · omega
      · intro _
        have := hb0 hlow0
        omega
  | case2 low high best hlh mid hmid hm =>
      intro hlh1 hhl h1 h2 hb0 hb1
      have hmhigh : mid ≤ high := by
        have : (high - low) / 2 ≤ high - low := Nat.div_le_self _ _
        simp only [mid]; omega
      rw [hW mid (le_trans hmhigh hhl)] at hm
      exact Option.noConfusion hm
  | case3 low high best hlh mid hmid w hw hwa ih =>
      intro hlh1 hhl h1 h2 hb0 hb1
      have hmhigh : mid ≤ high := by
        have : (high - low) / 2 ≤ high - low := Nat.div_le_self _ _
        simp only [mid]; omega
      have hwW : w = W mid := by
        rw [hW mid (le_trans hmhigh hhl)] at hw
        exact (Option.some_inj.1 hw).symm
      rw [findLoop, dif_pos hlh]
      simp only [dif_neg hmid, hw, if_pos hwa]
      refine ih ?_ hhl ?_ h2 ?_ ?_
      · omega
      · intro k hk1 hk2
        have hkm : k ≤ mid := by omega
        exact le_trans (hmono k mid hkm (le_trans hmhigh hhl)) (hwW ▸ hwa)
      · omega
      · intro _; omega
  | case4 low high best hlh mid hmid w hw hwa ih =>
      intro hlh1 hhl h1 h2 hb0 hb1
      have hmhigh : mid ≤ high := by
        have : (high - low) / 2 ≤ high - low := Nat.div_le_self _ _
        simp only [mid]; omega
      have hmlow : low ≤ mid := Nat.le_add_right _ _
      have hwW : w = W mid := by
        rw [hW mid (le_trans hmhigh hhl)] at hw
        exact (Option.some_inj.1 hw).symm
      rw [findLoop, dif_pos hlh]
      simp only [dif_neg hmid, hw, if_neg hwa]
      refine ih ?_ (le_trans (Nat.sub_le _ _) (le_trans hmhigh hhl)) h1 ?_ hb0 hb1
      · omega
      · intro k hk1 hk2
        have hkm : mid ≤ k := by omega
        have : W mid ≤ W k := hmono mid k hkm hk2
        omega
  | case5 low high best hlh =>
      intro hlh1 hhl h1 h2 hb0 hb1
      have hlow : low = high + 1 := by omega
      have hbest : best = high := by
        have h1l : 1 ≤ low := by omega
        have := hb1 h1l
        omega
      refine ⟨best, ?_, ?_, ?_, ?_⟩
      · rw [findLoop, dif_neg hlh]
      · rcases Nat.eq_zero_or_pos best with hb | hb
        · exact Or.inl hb
        · exact Or.inr ⟨hb, h1 best hb (by omega)⟩
      · intro j hj1 hj2
        exact h2 j (by omega) hj2
      · omega

/-- The binary-search loop cannot fail when the measurement never fails. -/
lemma findLoop_ne_none (m : Meas) (hm : ∀ s b' i', m s b' i' ≠ none)
    (text : List Char) (avail : Nat) (b i : Bool) :
    ∀ low high best, findLoop m text avail b i low high best ≠ none := by
  intro low high best
  induction low, high, best using findLoop.induct m text avail b i with
  | case1 low high best hlh mid hmid ih =>
      rw [findLoop, dif_pos hlh]
      simp only [dif_pos hmid]
      exact ih
  | case2 low high best hlh mid hmid hm' =>
      exact absurd hm' (hm _ _ _)
  | case3 low high best hlh mid hmid w hw hwa ih =>
      rw [findLoop, dif_pos hlh]
      simp only [dif_neg hmid, hw, if_pos hwa]
      exact ih
  | case4 low high best hlh mid hmid w hw hwa ih =>
      rw [findLoop, dif_pos hlh]
      simp only [dif_neg hmid, hw, if_neg hwa]
      exact ih
  | case5 low high best hlh =>
      rw [findLoop, dif_neg hlh]
      simp

/-- find_split_index cannot fail when the measurement never fails. -/
lemma find_split_ne_none (m : Meas) (hm : ∀ s b' i', m s b' i' ≠ none)
    (span : TextSpan) (avail : Nat) (use_ruby : Bool) :
    find_split_index m span avail use_ruby ≠ none := by
  simp only [find_split_index]
  intro h
  rcases Option.map_eq_none'.1 h with h'
  exact findLoop_ne_none m hm _ avail _ _ 0 _ 0 h'

/-- A positive split index is the byte offset of an in-bounds character cut
whose prefix measures within the available width. -/
lemma find_split_fit {m : Meas} {span : TextSpan} {avail : Nat} {use_ruby : Bool}
    {idx : Nat} (h : find_split_index m span avail use_ruby = some idx)
    (hpos : 0 < idx) :
    ∃ k, 0 < k ∧ k < (span.text_to_use use_ruby).length ∧
      idx = utf8Len ((span.text_to_use use_ruby).take k) ∧
      ∃ w, m ((span.text_to_use use_ruby).take k) span.is_bold span.is_italic = some w ∧
        w ≤ avail := by
  simp only [find_split_index] at h
  rcases Option.map_eq_some'.1 h with ⟨r, hfl, hidx⟩
  have hfit := findLoop_fit m (span.text_to_use use_ruby) avail span.is_bold
    span.is_italic 0 (span.text_to_use use_ruby).length 0 (Or.inl rfl) r hfl
  subst hidx
  obtain ⟨hrlen, hrpos, hct⟩ := charToByte_pos hpos
  rcases hfit with h0 | ⟨w, hw, hwa⟩
  · omega
  · exact ⟨r, hrpos, hrlen, hct, w, hw, hwa⟩

/- ------------------------------------------------------------------ -/
/- Text bookkeeping lemmas.                                            -/
/- ------------------------------------------------------------------ -/

lemma lineText_nil : lineText [] = [] := rfl

lemma lineText_append (a b : List TextSpan) :
    lineText (a ++ b) = lineText a ++ lineText b := by
  simp [lineText]

lemma linesText_append (a b : List (List TextSpan)) :
    linesText (a ++ b) = linesText a ++ linesText b := by
  simp [linesText]

lemma queueText_cons (s : TextSpan) (q : List TextSpan) :
    queueText (s :: q) = (if s.is_newline then [] else s.text) ++ queueText q := by
  simp [queueText]

/-- The epilogue preserves the accumulated text. -/
lemma finishLines_text (lines : List (List TextSpan)) (cl : List TextSpan) :
    linesText (finishLines lines cl) = linesText lines ++ lineText cl := by
  cases cl with
  | nil =>
      cases lines with
      | nil => simp [finishLines, linesText, lineText]
      | cons a as => simp [finishLines, linesText, lineText]
  | cons c cs => simp [finishLines, linesText, lineText, linesText_append]

/-- Stage 2 neither duplicates nor loses base text: every successful run
flushes exactly the accumulated and queued text into the lines. -/
lemma layoutLoop_content (m : Meas) (maxW : Nat) (r : Bool) (h : Int) :
    ∀ fuel q cl cw lines t,
      layoutLoop m maxW r h fuel q cl cw lines = .ok t →
      linesText t.lines = linesText lines ++ lineText cl ++ queueText q := by
  intro fuel
  induction fuel with
  | zero =>
      intro q cl cw lines t ht
      cases q with
      | nil =>
          simp only [layoutLoop] at ht
          injection ht with ht2
          subst ht2
          simp [finishLines_text, queueText]
      | cons s rest => exact absurd ht (by simp [layoutLoop])
  | succ n ih =>
      intro q cl cw lines t ht
      cases q with
      | nil =>
          simp only [layoutLoop] at ht
          injection ht with ht2
          subst ht2
          simp [finishLines_text, queueText]
      | cons span rest =>
          simp only [layoutLoop] at ht
          by_cases hnl : span.is_newline = true
          · simp only [layoutIter, if_pos hnl] at ht
            have H := ih rest [] 0 (lines ++ [cl]) t ht
            rw [H, queueText_cons, linesText_append]
            simp [hnl, linesText, lineText]
          · simp only [layoutIter, if_neg hnl] at ht
            cases hm : m (span.text_to_use r) span.is_bold span.is_italic with
            | none =>
                rw [hm] at ht
                simp at ht
            | some w =>
                rw [hm] at ht
                by_cases hle : w ≤ maxW - cw
                · simp only [if_pos hle] at ht
                  have H := ih rest (cl ++ [span]) (cw + w) lines t ht
                  rw [H, queueText_cons, lineText_append]
                  simp [hnl, lineText, List.append_assoc]
                · simp only [if_neg hle] at ht
                  cases hfs : find_split_index m span (maxW - cw) r with
                  | none =>
                      rw [hfs] at ht
                      simp at ht
                  | some idx =>
                      rw [hfs] at ht
                      by_cases hidx : 0 < idx
                      · simp only [if_pos hidx] at ht
                        cases hsp : splitAtByte span.text idx with
                        | none =>
                            rw [hsp] at ht
                            simp at ht
                        | some p =>
                            obtain ⟨fits, remaining⟩ := p
                            rw [hsp] at ht
                            have hfr : fits ++ remaining = span.text :=
                              splitAtByte_append _ _ _ _ hsp
                            have H := ih _ _ _ _ t ht
                            rw [H, queueText_cons, linesText_append]
                            simp [hnl, linesText, lineText, lineText_append,
                                  queueText_cons, ← hfr, List.append_assoc]
                      · simp only [if_neg hidx] at ht
                        have H := ih _ _ _ _ t ht
                        rw [H, queueText_cons, linesText_append]
                        simp [hnl, linesText, lineText, queueText_cons,
                              List.append_assoc]

lemma queueText_nil : queueText [] = [] := rfl

lemma queueText_append (a b : List TextSpan) :
    queueText (a ++ b) = queueText a ++ queueText b := by
  simp [queueText]

lemma splitNl_ne_nil : ∀ s : List Char, splitNl s ≠ [] := by
  intro s
  cases s with
  | nil => simp [splitNl]
  | cons c cs =>
      simp only [splitNl]
      by_cases hc : c = '\n'
      · simp [hc]
      · rw [if_neg hc]
        cases splitNl cs <;> simp

/-- Joining the newline-split fragments recovers the text minus its
newline characters. -/
lemma splitNl_flatten (s : List Char) :
    (splitNl s).flatten = s.filter (fun c => !(c == '\n')) := by
  induction s with
  | nil => rfl
  | cons c cs ih =>
      by_cases hc : c = '\n'
      · subst hc
        simp [splitNl, ih]
      · simp only [splitNl, if_neg hc]
        cases hsp : splitNl cs with
        | nil => exact absurd hsp (splitNl_ne_nil cs)
        | cons p ps =>
            have : (splitNl cs).flatten = cs.filter (fun c => !(c == '\n')) := ih
            rw [hsp] at this
            simp only [List.flatten_cons, List.filter_cons]
            have hc' : (c == '\n') = false := by simp [hc]
            simp [hc', ← this]

/-- Stage 1 of one span preserves (and only reorders into markers) the
fragment text. -/
lemma interleave_queueText (span : TextSpan) :
    ∀ parts : List (List Char),
      queueText (interleaveParts span parts) = parts.flatten := by
  intro parts
  induction parts with
  | nil => rfl
  | cons p ps ih =>
      cases ps with
      | nil =>
          cases p with
          | nil => simp [interleaveParts, queueText]
          | cons a as => simp [interleaveParts, queueText]
      | cons q qs =>
          simp only [interleaveParts]
          rw [queueText_append, queueText_cons]
          cases p with
          | nil => simpa [queueText] using ih
          | cons a as => simpa [queueText] using ih

/-- Stage 1 preserves the input text minus its newline characters. -/
lemma preprocess_queueText (spans : List TextSpan) :
    queueText (preprocess spans) =
      ((spans.map TextSpan.text).flatten).filter (fun c => !(c == '\n')) := by
  induction spans with
  | nil => rfl
  | cons s ss ih =>
      simp only [preprocess, List.map_cons, List.flatten_cons]
      rw [queueText_append]
      have h1 : queueText (interleaveParts s (splitNl s.text)) = s.text.filter (fun c => !(c == '\n')) := by
        rw [interleave_queueText, splitNl_flatten]
      rw [h1]
      simp only [preprocess] at ih
      rw [ih, List.filter_append]

lemma finishLines_ne_nil (lines : List (List TextSpan)) (cl : List TextSpan) :
    finishLines lines cl ≠ [] := by
  cases cl <;> cases lines <;> simp [finishLines]

/-- Any successful run produces a nonempty line list, the exact height
product, and a zero scroll offset. -/
lemma layoutLoop_shape (m : Meas) (maxW : Nat) (r : Bool) (h : Int) :
    ∀ fuel q cl cw lines t,
      layoutLoop m maxW r h fuel q cl cw lines = .ok t →
      t.lines ≠ [] ∧ t.total_height = h * (t.lines.length : Int) ∧
        t.scroll_offset = 0 := by
  intro fuel
  induction fuel with
  | zero =>
      intro q cl cw lines t ht
      cases q with
      | nil =>
          simp only [layoutLoop] at ht
          injection ht with ht2
          subst ht2
          exact ⟨finishLines_ne_nil _ _, rfl, rfl⟩
      | cons s rest => exact absurd ht (by simp [layoutLoop])
  | succ n ih =>
      intro q cl cw lines t ht
      cases q with
      | nil =>
          simp only [layoutLoop] at ht
          injection ht with ht2
          subst ht2
          exact ⟨finishLines_ne_nil _ _, rfl, rfl⟩
      | cons span rest =>
          simp only [layoutLoop] at ht
          cases hstep : layoutIter m maxW r span rest cl cw lines with
          | next q2 c2 w2 l2 =>
              rw [hstep] at ht
              exact ih q2 c2 w2 l2 t ht
          | errOut => rw [hstep] at ht; simp at ht
          | panicOut => rw [hstep] at ht; simp at ht

lemma measWidth_nil (m : Meas) (r : Bool) : measWidth m r [] = some 0 := rfl

/-- Appending one measurable span to a measurable line adds its width. -/
lemma measWidth_append_single (m : Meas) (r : Bool) (s : TextSpan) (w : Nat) :
    ∀ (cl : List TextSpan) (a : Nat), measWidth m r cl = some a →
      m (s.text_to_use r) s.is_bold s.is_italic = some w →
      measWidth m r (cl ++ [s]) = some (a + w) := by
  intro cl
  induction cl with
  | nil =>
      intro a ha hw
      simp only [measWidth] at ha
      injection ha with ha2
      subst ha2
      simp [measWidth, hw]
  | cons c cs ih =>
      intro a ha hw
      simp only [measWidth, List.cons_append] at ha ⊢
      cases hmc : m (c.text_to_use r) c.is_bold c.is_italic with
      | none => rw [hmc] at ha; exact absurd ha (by simp)
      | some wc =>
          rw [hmc] at ha
          cases hml : measWidth m r cs with
          | none => rw [hml] at ha; exact absurd ha (by simp)
          | some ac =>
              rw [hml] at ha
              simp only [] at ha
              injection ha with ha2
              simp only [List.append_eq]
              rw [ih ac hml hw]
              simp only []
              congr 1
              omega

/-- Membership in the epilogue's line list comes from the accumulated
lines, the last line, or the singleton empty line. -/
lemma finishLines_mem {P : List TextSpan → Prop}
    (lines : List (List TextSpan)) (cl : List TextSpan)
    (hl : ∀ l ∈ lines, P l) (hc : P cl) (hnil : P []) :
    ∀ l ∈ finishLines lines cl, P l := by
  intro l hmem
  cases cl with
  | nil =>
      cases lines with
      | nil =>
          simp [finishLines] at hmem
          subst hmem
          exact hnil
      | cons a as =>
          simp only [finishLines, List.isEmpty_nil, List.isEmpty_cons, if_true] at hmem
          exact hl l (by simpa using hmem)
  | cons c cs =>
      simp only [finishLines, List.isEmpty_cons] at hmem
      rw [if_neg (by simp), if_neg (by simp)] at hmem
      rcases List.mem_append.1 hmem with h1 | h2
      · exact hl l h1
      · simp at h2
        subst h2
        exact hc

lemma text_to_use_false (s : TextSpan) : s.text_to_use false = s.text := by
  simp [TextSpan.text_to_use]

/-- Width invariant of Stage 2 in non-ruby mode: every produced line
measures within max_width. -/
lemma layoutLoop_width (m : Meas) (maxW : Nat) (h : Int) :
    ∀ fuel q cl cw lines t,
      layoutLoop m maxW false h fuel q cl cw lines = .ok t →
      measWidth m false cl = some cw → cw ≤ maxW →
      (∀ l ∈ lines, ∃ wl, measWidth m false l = some wl ∧ wl ≤ maxW) →
      ∀ l ∈ t.lines, ∃ wl, measWidth m false l = some wl ∧ wl ≤ maxW := by
  intro fuel
  induction fuel with
  | zero =>
      intro q cl cw lines t ht hcl hcw hls
      cases q with
      | nil =>
          simp only [layoutLoop] at ht
          injection ht with ht2
          subst ht2
          exact finishLines_mem lines cl hls ⟨cw, hcl, hcw⟩ ⟨0, rfl, Nat.zero_le _⟩
      | cons s rest => exact absurd ht (by simp [layoutLoop])
  | succ n ih =>
      intro q cl cw lines t ht hcl hcw hls
      cases q with
      | nil =>
          simp only [layoutLoop] at ht
          injection ht with ht2
          subst ht2
          exact finishLines_mem lines cl hls ⟨cw, hcl, hcw⟩ ⟨0, rfl, Nat.zero_le _⟩
      | cons span rest =>
          simp only [layoutLoop] at ht
          by_cases hnl : span.is_newline = true
          · simp only [layoutIter, if_pos hnl] at ht
            refine ih rest [] 0 (lines ++ [cl]) t ht rfl (Nat.zero_le _) ?_
            intro l hmem
            rcases List.mem_append.1 hmem with h1 | h2
            · exact hls l h1
            · simp at h2; subst h2; exact ⟨cw, hcl, hcw⟩
          · simp only [layoutIter, if_neg hnl] at ht
            cases hm : m (span.text_to_use false) span.is_bold span.is_italic with
            | none => rw [hm] at ht; simp at ht
            | some w =>
                rw [hm] at ht
                by_cases hle : w ≤ maxW - cw
                · simp only [if_pos hle] at ht
                  refine ih rest (cl ++ [span]) (cw + w) lines t ht ?_ (by omega) hls
                  exact measWidth_append_single m false span w cl cw hcl hm
                · simp only [if_neg hle] at ht
                  cases hfs : find_split_index m span (maxW - cw) false with
                  | none => rw [hfs] at ht; simp at ht
                  | some idx =>
                      rw [hfs] at ht
                      by_cases hidx : 0 < idx
                      · simp only [if_pos hidx] at ht
                        cases hsp : splitAtByte span.text idx with
                        | none => rw [hsp] at ht; simp at ht
                        | some p =>
                            obtain ⟨fits, remaining⟩ := p
                            rw [hsp] at ht
                            obtain ⟨k, hk0, hklen, hkidx, wf, hwf, hwfle⟩ :=
                              find_split_fit hfs hidx
                            rw [text_to_use_false] at hklen hkidx hwf
                            have hbd := splitAtByte_boundary k span.text (le_of_lt hklen)
                            rw [← hkidx] at hbd
                            rw [hbd] at hsp
                            injection hsp with hsp2
                            injection hsp2 with hfits hrem
                            have hfitspan :
                                measWidth m false (cl ++ [{ span with text := fits }]) =
                                  some (cw + wf) := by
                              refine measWidth_append_single m false _ wf cl cw hcl ?_
                              rw [text_to_use_false]
                              rw [hfits] at hwf
                              exact hwf
                            refine ih _ [] 0 _ t ht rfl (Nat.zero_le _) ?_
                            intro l hmem
                            rcases List.mem_append.1 hmem with h1 | h2
                            · exact hls l h1
                            · simp at h2; subst h2
                              exact ⟨cw + wf, hfitspan, by omega⟩
                      · simp only [if_neg hidx] at ht
                        refine ih _ [] 0 _ t ht rfl (Nat.zero_le _) ?_
                        intro l hmem
                        rcases List.mem_append.1 hmem with h1 | h2
                        · exact hls l h1
                        · simp at h2; subst h2; exact ⟨cw, hcl, hcw⟩

/-- With a total measurement the loop body never produces the error arm. -/
lemma layoutIter_ne_err (m : Meas) (hm : ∀ s b' i', m s b' i' ≠ none)
    (maxW : Nat) (r : Bool) (span : TextSpan) (rest cl : List TextSpan)
    (cw : Nat) (lines : List (List TextSpan)) :
    layoutIter m maxW r span rest cl cw lines ≠ .errOut := by
  unfold layoutIter
  by_cases hnl : span.is_newline = true
  · simp [hnl]
  · simp only [if_neg hnl]
    cases hmm : m (span.text_to_use r) span.is_bold span.is_italic with
    | none => exact absurd hmm (hm _ _ _)
    | some w =>
        by_cases hle : w ≤ maxW - cw
        · simp [if_pos hle]
        · simp only [if_neg hle]
          cases hfs : find_split_index m span (maxW - cw) r with
          | none => exact absurd hfs (find_split_ne_none m hm span _ r)
          | some idx =>
              by_cases hidx : 0 < idx
              · simp only [if_pos hidx]
                cases hsp : splitAtByte span.text idx <;> simp
              · simp [if_neg hidx]

/-- With a total measurement Stage 2 never returns the error result. -/
lemma layoutLoop_ne_err (m : Meas) (hm : ∀ s b' i', m s b' i' ≠ none)
    (maxW : Nat) (r : Bool) (h : Int) :
    ∀ fuel q cl cw lines,
      layoutLoop m maxW r h fuel q cl cw lines ≠ .errRes := by
  intro fuel
  induction fuel with
  | zero =>
      intro q cl cw lines
      cases q <;> simp [layoutLoop]
  | succ n ih =>
      intro q cl cw lines
      cases q with
      | nil => simp [layoutLoop]
      | cons span rest =>
          simp only [layoutLoop]
          cases hstep : layoutIter m maxW r span rest cl cw lines with
          | next q2 c2 w2 l2 => exact ih q2 c2 w2 l2
          | errOut => exact absurd hstep (layoutIter_ne_err m hm maxW r span rest cl cw lines)
          | panicOut => simp

/- ------------------------------------------------------------------ -/
/- Claim theorems.                                                     -/
/- ------------------------------------------------------------------ -/

/-- Helper for C1: with a character of width 300 against a 200px box the
Stage-2 loop revisits the same state forever (it only appends empty
lines), so every fuel bound is exhausted. -/
lemma overwide_loop :
    ∀ (fuel : Nat) (lines : List (List TextSpan)),
      layoutLoop m300 200 false 10 fuel [mkSpan ['W']] [] 0 lines = .noFuel := by
  intro fuel
  induction fuel with
  | zero => intro lines; simp [layoutLoop]
  | succ n ih =>
      intro lines
      have hfs : find_split_index m300 (mkSpan ['W']) 200 false = some 0 := by
        simp [find_split_index, findLoop, m300, charToByte, mkSpan,
              TextSpan.text_to_use, utf8Len]
      have hstep : layoutIter m300 200 false (mkSpan ['W']) [] [] 0 lines =
          .next [mkSpan ['W']] [] 0 (lines ++ [[]]) := by
        simp only [mkSpan] at hfs
        simp [layoutIter, m300, mkSpan, TextSpan.text_to_use, hfs]
      simp only [layoutLoop, hstep]
      exact ih (lines ++ [[]])

/-- C1: REFUTED BY THE CODE (code bug).  The claim demands termination with
eventual force-placement of a character wider than max_width.  The code has
no force-placement branch: when not even one character fits on a fresh line
it pushes the span back unchanged and emits an empty line, repeating
forever.  With one span "W" of measured width 300 and max_width = 200 the
call runs out of any fuel bound, i.e. the Rust loop never returns. -/
theorem c1_overwide_char_nontermination :
    ∀ fuel : Nat,
      layout_text_binary m300 10 [mkSpan ['W']] 200 false fuel = .noFuel := by
  intro fuel
  have hpre : preprocess [mkSpan ['W']] = [mkSpan ['W']] := by decide
  rw [layout_text_binary, hpre]
  exact overwide_loop fuel []

/-- C7: CONFIRMED.  Concatenating the base text of all spans across all
produced lines reproduces the input text exactly minus its newline
characters (the only whitespace consumed at explicit break points), for
any measurement, width, ruby mode and fuel. -/
theorem c7_content_preservation (m : Meas) (lh : Int) (spans : List TextSpan)
    (maxW : Nat) (use_ruby : Bool) (fuel : Nat) (t : TextLayout)
    (h : layout_text_binary m lh spans maxW use_ruby fuel = .ok t) :
    linesText t.lines =
      ((spans.map TextSpan.text).flatten).filter (fun c => !(c == '\n')) := by
  have H := layoutLoop_content m maxW use_ruby lh fuel (preprocess spans) [] 0 [] t h
  rw [H, preprocess_queueText]
  simp [linesText, lineText]

/-- Witness for C7 at a concrete input: one span "a\nb" lays out into lines
"a" and "b", whose concatenation is the input minus the newline. -/
theorem c7_content_preservation_witness :
    linesText ([[mkSpan ['a']], [mkSpan ['b']]] : List (List TextSpan)) =
      (([mkSpan ['a', '\n', 'b']].map TextSpan.text).flatten).filter
        (fun c => !(c == '\n')) :=
  c7_content_preservation cnt 10 [mkSpan ['a', '\n', 'b']] 9 false 9
    ⟨[[mkSpan ['a']], [mkSpan ['b']]], 20, 0⟩ (by decide)

/-- C8: CONFIRMED.  Every successful layout has at least one line and
total_height exactly line_height times the line count; the empty input
yields exactly one empty line of total_height line_height. -/
theorem c8_layout_shape (m : Meas) (lh : Int) (spans : List TextSpan)
    (maxW : Nat) (use_ruby : Bool) (fuel : Nat) (t : TextLayout) :
    (layout_text_binary m lh spans maxW use_ruby fuel = .ok t →
      1 ≤ t.lines.length ∧ t.total_height = lh * (t.lines.length : Int)) ∧
    layout_text_binary m lh [] maxW use_ruby fuel = .ok ⟨[[]], lh, 0⟩ := by
  constructor
  · intro h
    obtain ⟨hne, hth, _⟩ := layoutLoop_shape m maxW use_ruby lh fuel _ _ _ _ t h
    exact ⟨Nat.one_le_iff_ne_zero.2 (by simpa using hne), hth⟩
  · cases fuel <;> simp [layout_text_binary, preprocess, layoutLoop, finishLines]

/-- Witness for C8 at a concrete input. -/
theorem c8_layout_shape_witness :
    (1 ≤ (⟨[[mkSpan ['a']]], 10, 0⟩ : TextLayout).lines.length ∧
      (⟨[[mkSpan ['a']]], 10, 0⟩ : TextLayout).total_height =
        10 * ((⟨[[mkSpan ['a']]], 10, 0⟩ : TextLayout).lines.length : Int)) ∧
    layout_text_binary cnt 10 ([] : List TextSpan) 9 false 9 = .ok ⟨[[]], 10, 0⟩ :=
  ⟨(c8_layout_shape cnt 10 [mkSpan ['a']] 9 false 9 ⟨[[mkSpan ['a']]], 10, 0⟩).1
      (by decide),
    (c8_layout_shape cnt 10 [] 9 false 9 ⟨[[]], 10, 0⟩).2⟩

/-- C10: CORRECTED.  The error result arises only from a measurement
failure: with a total measurement the call never returns the explicit
error (first conjunct), and a failing measurement aborts the whole call
with the explicit error (second conjunct, concrete instance).  The
original claim additionally asserted that the call always returns either
a complete layout or an explicit error, which is refuted separately: a
ruby split can panic and an over-wide character loops forever. -/
theorem c10_error_only_from_measurement (m : Meas) (lh : Int)
    (spans : List TextSpan) (maxW : Nat) (use_ruby : Bool) (fuel : Nat)
    (hm : ∀ s b i, m s b i ≠ none) :
    layout_text_binary m lh spans maxW use_ruby fuel ≠ .errRes ∧
    layout_text_binary (fun _ _ _ => none) 10 [mkSpan ['a']] 9 false 9 = .errRes :=
  ⟨layoutLoop_ne_err m hm maxW use_ruby lh fuel (preprocess spans) [] 0 [],
    by decide⟩

/-- Witness for C10: the total character-count measurement never yields the
error result on a concrete call. -/
theorem c10_error_only_from_measurement_witness :
    layout_text_binary cnt 10 [mkSpan ['a']] 9 false 9 ≠ .errRes ∧
    layout_text_binary (fun _ _ _ => none) 10 [mkSpan ['a']] 9 false 9 = .errRes :=
  c10_error_only_from_measurement cnt 10 [mkSpan ['a']] 9 false 9
    (fun s b i => by simp [cnt])

/-- C9: CORRECTED (amended form).  When the display text's full measured
width exceeds the available width and measurement is monotone in prefix
length, find_split_index returns the byte offset of the maximal
whole-character prefix that fits (offset 0 when not even one character
fits), and the offset never cuts inside a code point since it is a
character-boundary byte offset.  (The original claim fails when the whole
text fits: the code then returns 0, not the text's byte length — see the
counterexample.) -/
theorem c9_find_split_maximal_fitting_cut (m : Meas) (span : TextSpan)
    (avail : Nat) (use_ruby : Bool) (W : Nat → Nat)
    (hW : ∀ k, k ≤ (span.text_to_use use_ruby).length →
        m ((span.text_to_use use_ruby).take k) span.is_bold span.is_italic =
          some (W k))
    (hmono : ∀ j k, j ≤ k → k ≤ (span.text_to_use use_ruby).length → W j ≤ W k)
    (hfull : avail < W (span.text_to_use use_ruby).length) :
    ∃ K, find_split_index m span avail use_ruby =
        some (utf8Len ((span.text_to_use use_ruby).take K)) ∧
      (K = 0 ∨ W K ≤ avail) ∧
      (∀ j, K < j → j ≤ (span.text_to_use use_ruby).length → avail < W j) := by
  obtain ⟨r, hr, hfit, hmax, hrle⟩ :=
    findLoop_correct m (span.text_to_use use_ruby) avail span.is_bold
      span.is_italic W hW hmono 0 (span.text_to_use use_ruby).length 0
      (by omega) le_rfl (by intro k hk1 hk2; omega)
      (by intro k hk1 hk2; omega) (fun _ => rfl) (by omega)
  refine ⟨r, ?_, ?_, hmax⟩
  · simp only [find_split_index, hr, Option.map_some']
    rcases hfit with h0 | ⟨h1r, hWr⟩
    · subst h0
      simp [charToByte, utf8Len]
    · have hrlt : r < (span.text_to_use use_ruby).length := by
        rcases eq_or_lt_of_le hrle with he | hlt
        · rw [he] at hWr; omega
        · exact hlt
      simp [charToByte, hrlt]
  · rcases hfit with h0 | ⟨_, hWr⟩
    · exact Or.inl h0
    · exact Or.inr hWr

/-- Counterexample for C9: under the unit-width measurement the whole text
"ab" (byte length 2) fits in the available width 5, and the claim then
demands the byte offset delimiting that maximal prefix, namely 2; the code
returns 0 instead (char_indices().nth(count) is None and map_or defaults
to 0). -/
theorem c9_full_fit_returns_zero :
    find_split_index cnt (mkSpan ['a', 'b']) 5 false = some 0 ∧
      find_split_index cnt (mkSpan ['a', 'b']) 5 false ≠
        some (utf8Len (['a', 'b'] : List Char)) := by
  have h : find_split_index cnt (mkSpan ['a', 'b']) 5 false = some 0 := by
    simp [find_split_index, findLoop, cnt, charToByte, mkSpan, TextSpan.text_to_use]
  refine ⟨h, ?_⟩
  rw [h]
  simp [utf8Len]
  decide

/-- Witness for C9 on a concrete monotone instance: text "abc" with
per-character width 1 against available width 1. -/
theorem c9_find_split_maximal_fitting_cut_witness :
    ∃ K, find_split_index cnt (mkSpan ['a', 'b', 'c']) 1 false =
        some (utf8Len (((mkSpan ['a', 'b', 'c']).text_to_use false).take K)) ∧
      (K = 0 ∨ min K 3 ≤ 1) ∧
      (∀ j, K < j → j ≤ ((mkSpan ['a', 'b', 'c']).text_to_use false).length →
        1 < min j 3) :=
  c9_find_split_maximal_fitting_cut cnt (mkSpan ['a', 'b', 'c']) 1 false
    (fun k => min k 3)
    (by
      intro k hk
      simp [cnt, mkSpan, TextSpan.text_to_use])
    (by intro j k hjk hk; dsimp only; omega)
    (by simp [mkSpan, TextSpan.text_to_use])

lemma utf8Size_a : ('a').utf8Size = 1 := rfl
lemma utf8Size_b : ('b').utf8Size = 1 := rfl
lemma utf8Size_c : ('c').utf8Size = 1 := rfl
lemma utf8Size_d : ('d').utf8Size = 1 := rfl
lemma utf8Size_e : ('e').utf8Size = 1 := rfl
lemma utf8Size_f : ('f').utf8Size = 1 := rfl

/-- C2: CORRECTED (amended form).  In non-ruby mode every produced line's
summed measured width is at most max_width, unconditionally — the claimed
exception for a forced over-wide single-character line never occurs
because the code has no force-placement (it fails to terminate instead,
see C1).  In ruby mode the claim fails: a split span keeps its whole ruby
text, so a line can exceed max_width (see the counterexample). -/
theorem c2_width_fit_nonruby (m : Meas) (lh : Int) (spans : List TextSpan)
    (maxW : Nat) (fuel : Nat) (t : TextLayout)
    (h : layout_text_binary m lh spans maxW false fuel = .ok t) :
    ∀ line ∈ t.lines, ∃ wl, measWidth m false line = some wl ∧ wl ≤ maxW :=
  layoutLoop_width m maxW lh fuel (preprocess spans) [] 0 [] t h rfl
    (Nat.zero_le _) (by intro l hl; exact absurd hl (List.not_mem_nil l))

/-- Witness for C2 on a concrete run that fits. -/
theorem c2_width_fit_nonruby_witness :
    ∃ wl, measWidth cnt false [mkSpan ['a', 'b']] = some wl ∧ wl ≤ 5 :=
  c2_width_fit_nonruby cnt 10 [mkSpan ['a', 'b']] 5 9
    ⟨[[mkSpan ['a', 'b']]], 10, 0⟩ (by decide) [mkSpan ['a', 'b']] (by decide)

/-- Counterexample for C2: in ruby mode with unit character widths and
max_width 3, the spans "ab" and base "c" with ruby "de" produce a first
line [ab, c(ruby de)] whose displayed widths sum to 4 > 3, and that line
has two spans, so the claim's single-forced-span exception does not apply. -/
theorem c2_width_fit_counterexample :
    layout_text_binary cnt 10 [mkSpan ['a', 'b'], mkRuby ['c'] ['d', 'e']] 3 true 9 =
      .ok ⟨[[mkSpan ['a', 'b'], mkRuby ['c'] ['d', 'e']],
            [mkRuby [] ['d', 'e']]], 20, 0⟩ ∧
    measWidth cnt true [mkSpan ['a', 'b'], mkRuby ['c'] ['d', 'e']] = some 4 := by
  constructor
  · simp [layout_text_binary, preprocess, splitNl, interleaveParts, layoutLoop,
          layoutIter, cnt, mkSpan, mkRuby, TextSpan.text_to_use, find_split_index,
          findLoop, charToByte, utf8Len, splitAtByte, finishLines,
          utf8Size_a, utf8Size_b, utf8Size_c, utf8Size_d, utf8Size_e]
  · decide

/-- C3: CORRECTED (amended form).  When a dequeued span does not fully fit
and a non-empty prefix fits, the code splits the BASE text at the byte
index computed on the display text, preserving all style and ruby fields
(the ruby text is kept whole, not sliced), and pushes the remainder to the
front of the queue.  In non-ruby mode, where display text and base text
coincide, the fits sub-span carries exactly a fitting prefix of the
display text and the remainder exactly the rest, as stated here. -/
theorem c3_split_step_nonruby (m : Meas) (maxW : Nat) (span : TextSpan)
    (rest cl : List TextSpan) (cw : Nat) (lines : List (List TextSpan))
    (w idx : Nat)
    (hnl : span.is_newline = false)
    (hm : m (span.text_to_use false) span.is_bold span.is_italic = some w)
    (hle : ¬ w ≤ maxW - cw)
    (hfs : find_split_index m span (maxW - cw) false = some idx)
    (hidx : 0 < idx) :
    ∃ k, 0 < k ∧ k < span.text.length ∧
      layoutIter m maxW false span rest cl cw lines =
        .next ({ span with text := span.text.drop k } :: rest) [] 0
          (lines ++ [cl ++ [{ span with text := span.text.take k }]]) ∧
      ∃ wf, m (span.text.take k) span.is_bold span.is_italic = some wf ∧
        wf ≤ maxW - cw := by
  obtain ⟨k, hk0, hklen, hkidx, wf, hwf, hwfle⟩ := find_split_fit hfs hidx
  rw [text_to_use_false] at hklen hkidx hwf
  refine ⟨k, hk0, hklen, ?_, wf, hwf, hwfle⟩
  have hbd := splitAtByte_boundary k span.text (le_of_lt hklen)
  rw [← hkidx] at hbd
  unfold layoutIter
  rw [if_neg (by simp [hnl])]
  simp only [hm, if_neg hle, hfs, if_pos hidx, hbd]

/-- Witness for C3: span "abc" with unit widths against space 2 splits into
"ab" on the line and "c" pushed back. -/
theorem c3_split_step_nonruby_witness :
    ∃ k, 0 < k ∧ k < (mkSpan ['a', 'b', 'c']).text.length ∧
      layoutIter cnt 2 false (mkSpan ['a', 'b', 'c']) [] [] 0 [] =
        .next ({ mkSpan ['a', 'b', 'c'] with
                  text := (mkSpan ['a', 'b', 'c']).text.drop k } :: []) [] 0
          ([] ++ [[] ++ [{ mkSpan ['a', 'b', 'c'] with
                  text := (mkSpan ['a', 'b', 'c']).text.take k }]]) ∧
      ∃ wf, cnt ((mkSpan ['a', 'b', 'c']).text.take k)
          (mkSpan ['a', 'b', 'c']).is_bold (mkSpan ['a', 'b', 'c']).is_italic =
            some wf ∧ wf ≤ 2 - 0 :=
  c3_split_step_nonruby cnt 2 (mkSpan ['a', 'b', 'c']) [] [] 0 [] 3 2 rfl
    (by decide) (by decide)
    (by simp [find_split_index, findLoop, cnt, charToByte, mkSpan,
              TextSpan.text_to_use, utf8Len, utf8Size_a, utf8Size_b, utf8Size_c])
    (by decide)

/-- Counterexample for C3: in ruby mode (base "bc", ruby "def", unit
widths, max_width 3 with 1px already used) the fitting display prefix is
"de", but the produced fits sub-span carries the base prefix "bc" and the
FULL ruby text "def" — the ruby text is not sliced, contradicting the
claim. -/
theorem c3_split_ruby_counterexample :
    layout_text_binary cnt 10 [mkSpan ['a'], mkRuby ['b', 'c'] ['d', 'e', 'f']] 3 true 9 =
      .ok ⟨[[mkSpan ['a'], mkRuby ['b', 'c'] ['d', 'e', 'f']],
            [mkRuby [] ['d', 'e', 'f']]], 20, 0⟩ ∧
    (mkRuby ['b', 'c'] ['d', 'e', 'f']).text ≠ ['d', 'e'] ∧
    (mkRuby ['b', 'c'] ['d', 'e', 'f']).ruby_text = some ['d', 'e', 'f'] := by
  refine ⟨?_, by decide, by decide⟩
  simp [layout_text_binary, preprocess, splitNl, interleaveParts, layoutLoop,
        layoutIter, cnt, mkSpan, mkRuby, TextSpan.text_to_use, find_split_index,
        findLoop, charToByte, utf8Len, splitAtByte, finishLines,
        utf8Size_a, utf8Size_b, utf8Size_c, utf8Size_d, utf8Size_e, utf8Size_f]

/-- C4: REFUTED BY THE CODE (code bug).  In ruby mode the byte index is
computed on the ruby text but split_at is applied to the base text: with
base "ab" (2 bytes) and ruby "cdef" (unit widths, max_width 3) the index
is 3, out of bounds for "ab", and the Rust call panics. -/
theorem c4_ruby_split_panics :
    layout_text_binary cnt 10 [mkRuby ['a', 'b'] ['c', 'd', 'e', 'f']] 3 true 9 =
      .panicRes := by
  simp [layout_text_binary, preprocess, splitNl, interleaveParts, layoutLoop,
        layoutIter, cnt, mkRuby, TextSpan.text_to_use, find_split_index,
        findLoop, charToByte, utf8Len, splitAtByte, finishLines,
        utf8Size_a, utf8Size_b, utf8Size_c, utf8Size_d, utf8Size_e, utf8Size_f]

/-- Counterexample for C5: an input marker span with isNewline = true and
empty text is dropped by Stage 1 (which only regenerates markers from
embedded newline characters), so ["A", marker, "B"] yields ONE line
containing "A" and "B", not the two lines the claim requires. -/
theorem c5_marker_span_dropped :
    layout_text_binary cnt 10
        [mkSpan ['A'], { mkSpan [] with is_newline := true }, mkSpan ['B']]
        100 false 9 =
      .ok ⟨[[mkSpan ['A'], mkSpan ['B']]], 10, 0⟩ := by
  decide

/-- C5: CORRECTED (amended form).  Explicit breaks are carried as newline
characters in the span text: a break span written with text "\n" yields
exactly the two lines ["A"], ["B"], and adjacent newline characters
produce an intervening blank line. -/
theorem c5_newline_char_breaks :
    layout_text_binary cnt 10
        [mkSpan ['A'], { mkSpan ['\n'] with is_newline := true }, mkSpan ['B']]
        100 false 9 =
      .ok ⟨[[mkSpan ['A']], [mkSpan ['B']]], 20, 0⟩ ∧
    layout_text_binary cnt 10 [mkSpan ['A', '\n', '\n', 'B']] 100 false 9 =
      .ok ⟨[[mkSpan ['A']], [], [mkSpan ['B']]], 30, 0⟩ := by
  constructor <;> decide

/-- Counterexample for C10: on a ruby span with base "a" and ruby "cde"
(unit widths, max_width 2) the call ends in a split_at panic — neither a
complete TextLayout nor the explicit error value — refuting the claim
that every call returns one of the two. -/
theorem c10_panic_not_error :
    layout_text_binary cnt 10 [mkRuby ['a'] ['c', 'd', 'e']] 2 true 9 =
      .panicRes ∧ LRes.panicRes ≠ LRes.errRes := by
  constructor
  · simp [layout_text_binary, preprocess, splitNl, interleaveParts, layoutLoop,
          layoutIter, cnt, mkRuby, TextSpan.text_to_use, find_split_index,
          findLoop, charToByte, utf8Len, splitAtByte, finishLines,
          utf8Size_a, utf8Size_c, utf8Size_d, utf8Size_e]
  · simp

/-- C6: REFUTED BY THE CODE (code bug).  layout_text_binary never reads
new_text_block: a span with the flag set is laid out on the current line
with no preceding flush, so "A" and the block-starting "B" share one
line, where the claim requires the current line to be finalized first. -/
theorem c6_new_text_block_ignored :
    layout_text_binary cnt 10
        [mkSpan ['A'], { mkSpan ['B'] with new_text_block := true }] 100 false 9 =
      .ok ⟨[[mkSpan ['A'], { mkSpan ['B'] with new_text_block := true }]], 10, 0⟩ := by
  decide

end CardBrick
